import Mathlib

/-!
Verification development for the RM-tools 3D pipeline
(`RMtools_3D/do_RMsynth_3D.py`, `RMtools_3D/do_RMclean_3D.py` and the
core numerical routines of `RMutils/util_RM.py` they invoke).

Real/complex machine arithmetic is embedded over the rationals: a complex
sample is a pair of rationals (`Qc`), and magnitude comparisons are done
through the squared norm (for rationals `|z| < c` iff `0 ≤ c` and
`normSq z < c^2`), which keeps every definition executable and decidable.
The per-channel phase factor `exp(-2 i φ (λ² - λ²₀))` is transcendental,
so it is abstracted as an explicit function argument `cis : ℚ → Qc`
throughout; properties that depend on its value at `0` take `cis 0 = 1`
as a hypothesis.
-/

namespace RMTools

/-- A complex number with rational real and imaginary parts, standing in
for the complex machine floats of the pipeline. -/
structure Qc where
  re : ℚ
  im : ℚ
deriving DecidableEq

namespace Qc

theorem ext {x y : Qc} (h1 : x.re = y.re) (h2 : x.im = y.im) : x = y := by
  cases x
  cases y
  cases h1
  cases h2
  rfl

instance : Zero Qc := ⟨⟨0, 0⟩⟩

instance : One Qc := ⟨⟨1, 0⟩⟩

instance : Add Qc := ⟨fun x y => ⟨x.re + y.re, x.im + y.im⟩⟩

instance : Neg Qc := ⟨fun x => ⟨-x.re, -x.im⟩⟩

instance : Mul Qc := ⟨fun x y => ⟨x.re * y.re - x.im * y.im, x.re * y.im + x.im * y.re⟩⟩

@[simp] theorem re_zero : (0 : Qc).re = 0 := rfl

@[simp] theorem im_zero : (0 : Qc).im = 0 := rfl

@[simp] theorem re_one : (1 : Qc).re = 1 := rfl

@[simp] theorem im_one : (1 : Qc).im = 0 := rfl

@[simp] theorem re_add (x y : Qc) : (x + y).re = x.re + y.re := rfl

@[simp] theorem im_add (x y : Qc) : (x + y).im = x.im + y.im := rfl

@[simp] theorem re_neg (x : Qc) : (-x).re = -x.re := rfl

@[simp] theorem im_neg (x : Qc) : (-x).im = -x.im := rfl

@[simp] theorem re_mul (x y : Qc) : (x * y).re = x.re * y.re - x.im * y.im := rfl

@[simp] theorem im_mul (x y : Qc) : (x * y).im = x.re * y.im + x.im * y.re := rfl

instance : CommRing Qc where
  add_assoc a b c := by apply ext <;> simp <;> ring
  zero_add a := by apply ext <;> simp
  add_zero a := by apply ext <;> simp
  add_comm a b := by apply ext <;> simp <;> ring
  neg_add_cancel a := by apply ext <;> simp
  left_distrib a b c := by apply ext <;> simp <;> ring
  right_distrib a b c := by apply ext <;> simp <;> ring
  zero_mul a := by apply ext <;> simp
  mul_zero a := by apply ext <;> simp
  mul_assoc a b c := by apply ext <;> simp <;> ring
  one_mul a := by apply ext <;> simp
  mul_one a := by apply ext <;> simp
  mul_comm a b := by apply ext <;> simp <;> ring
  nsmul := nsmulRec
  zsmul := zsmulRec

@[simp] theorem re_sub (x y : Qc) : (x - y).re = x.re - y.re := by
  rw [sub_eq_add_neg, sub_eq_add_neg]
  simp

@[simp] theorem im_sub (x y : Qc) : (x - y).im = x.im - y.im := by
  rw [sub_eq_add_neg, sub_eq_add_neg]
  simp

/-- Embedding of rationals (real scalars) into `Qc`. -/
def ofQ (k : ℚ) : Qc := ⟨k, 0⟩

@[simp] theorem ofQ_re (k : ℚ) : (ofQ k).re = k := rfl

@[simp] theorem ofQ_im (k : ℚ) : (ofQ k).im = 0 := rfl

@[simp] theorem ofQ_zero : ofQ 0 = 0 := rfl

@[simp] theorem ofQ_one : ofQ 1 = 1 := rfl

theorem ofQ_mul (a b : ℚ) : ofQ (a * b) = ofQ a * ofQ b := by
  apply ext <;> simp

theorem ofQ_add (a b : ℚ) : ofQ (a + b) = ofQ a + ofQ b := by
  apply ext <;> simp

/-- Squared norm of a complex sample; used for all magnitude comparisons. -/
def normSq (x : Qc) : ℚ := x.re * x.re + x.im * x.im

@[simp] theorem normSq_zero : normSq 0 = 0 := by
  simp [normSq]

theorem normSq_ofQ_mul (k : ℚ) (z : Qc) :
    normSq (ofQ k * z) = k ^ 2 * normSq z := by
  simp [normSq]
  ring

/-- Decidable rendering of the float comparison `|z| < c`: for a
rational cutoff `c` this holds iff `0 ≤ c` and `normSq z < c^2`. -/
def magLtB (z : Qc) (c : ℚ) : Bool := decide (0 ≤ c ∧ normSq z < c ^ 2)

theorem magLtB_ofQ_mul (k : ℚ) (hk : 0 < k) (z : Qc) (c : ℚ) :
    magLtB (ofQ k * z) (k * c) = magLtB z c := by
  simp only [magLtB, normSq_ofQ_mul, mul_pow, decide_eq_decide]
  constructor
  · rintro ⟨h1, h2⟩
    refine ⟨nonneg_of_mul_nonneg_right h1 hk, ?_⟩
    exact lt_of_mul_lt_mul_left h2 (by positivity)
  · rintro ⟨h1, h2⟩
    refine ⟨by positivity, ?_⟩
    exact (mul_lt_mul_left (by positivity)).2 h2

end Qc

/-- Sum of a list of complex samples (explicit accumulator form, the
shape of the running reductions in the code). -/
def csum (l : List Qc) : Qc := l.foldl (fun a z => a + z) 0

theorem csum_eq_sum (l : List Qc) : csum l = l.sum := by
  have h : ∀ (l : List Qc) (a : Qc), l.foldl (fun a z => a + z) a = a + l.sum := by
    intro l
    induction l with
    | nil => intro a; simp
    | cons z rest ih =>
        intro a
        simp only [List.foldl_cons, List.sum_cons, ih]
        ring
  simp [csum, h]

/-! ## Synthesis engine (spec §4.3) -/

/-- One frequency channel of a pixel: effective weight `w` (zeroed at
invalid channels), wavelength-squared `lam2`, and the complex
polarization sample `P = Q + iU`. -/
structure Channel where
  w : ℚ
  lam2 : ℚ
  P : Qc
deriving DecidableEq

/-- Running-accumulator weight sum `Σ w_c`, the shape of the reduction
in the code. -/
def wAccum (cs : List Channel) : ℚ := cs.foldl (fun a c => a + c.w) 0

/-- Closed-form weight sum `Σ w_c`. -/
def wSum (cs : List Channel) : ℚ := (cs.map (fun c => c.w)).sum

theorem foldl_add_eq_sum (f : Channel → ℚ) (cs : List Channel) :
    cs.foldl (fun a c => a + f c) 0 = (cs.map f).sum := by
  have h : ∀ (cs : List Channel) (a : ℚ),
      cs.foldl (fun a c => a + f c) a = a + (cs.map f).sum := by
    intro cs
    induction cs with
    | nil => intro a; simp
    | cons c rest ih =>
        intro a
        simp only [List.foldl_cons, List.map_cons, List.sum_cons, ih]
        ring
  simp [h]

theorem wAccum_eq_wSum (cs : List Channel) : wAccum cs = wSum cs :=
  foldl_add_eq_sum (fun c => c.w) cs

/-- The channels carrying nonzero weight. -/
def validChannels (cs : List Channel) : List Channel :=
  cs.filter (fun c => decide (c.w ≠ 0))

/-- Modelled from the spec: the reference wavelength-squared
`λ²₀ = Σ(w_c λ²_c) / Σ w_c` restricted to the channels with nonzero
weight, as computed inside `do_rmsynth_planes` of `RMutils/util_RM.py`
(that file is not part of src/). Accumulator form. -/
def lam2_0 (cs : List Channel) : ℚ :=
  (validChannels cs).foldl (fun a c => a + c.w * c.lam2) 0 / wAccum (validChannels cs)

/-- Closed-form `λ²₀` over the nonzero-weight channels. -/
def lam2_0C (cs : List Channel) : ℚ :=
  ((validChannels cs).map (fun c => c.w * c.lam2)).sum /
    ((validChannels cs).map (fun c => c.w)).sum

theorem lam2_0_eq (cs : List Channel) : lam2_0 cs = lam2_0C cs := by
  unfold lam2_0 lam2_0C
  rw [foldl_add_eq_sum (fun c => c.w * c.lam2), wAccum_eq_wSum]
  rfl

/-- One dirty-FDF sample: `(1/Σw) Σ_c w_c P_c cis(-2 φ (λ²_c - λ²₀))`,
accumulated with a running sum. -/
def fdfSample (cis : ℚ → Qc) (cs : List Channel) (l20 : ℚ) (phi : ℚ) : Qc :=
  Qc.ofQ (1 / wAccum cs) *
    csum (cs.map (fun c => Qc.ofQ c.w * c.P * cis (-(2 * phi * (c.lam2 - l20)))))

/-- Modelled from the spec: the per-pixel dirty-FDF synthesis of
`do_rmsynth_planes` in `RMutils/util_RM.py` (not part of src/).
A degenerate pixel (`Σ w_c = 0`) yields the "no data" sentinel (`none`)
at every trial depth; otherwise every trial depth receives the weighted
phase-rotated mean of the channel samples. -/
def synthesize (cis : ℚ → Qc) (cs : List Channel) (phis : List ℚ) :
    List (Option Qc) :=
  if wAccum cs = 0 then phis.map (fun _ => none)
  else phis.map (fun k => some (fdfSample cis cs (lam2_0 cs) k))

/-- C1: for every pixel whose weight vector has a nonzero sum, the
synthesized dirty FDF at every trial depth `φ_k` equals
`(1/Σ w_c) Σ_c w_c P_c cis(-2 φ_k (λ²_c - λ²₀))` with
`λ²₀ = Σ(w_c λ²_c)/Σ w_c` taken over the channels with nonzero weight;
for every pixel whose weights sum to zero, `synthesize` returns the
"no data" sentinel at every trial depth. -/
theorem C1_synthesize_formula (cis : ℚ → Qc) (cs : List Channel) (phis : List ℚ) :
    synthesize cis cs phis =
      if wSum cs = 0 then phis.map (fun _ => none)
      else
        phis.map (fun k => some (Qc.ofQ (1 / wSum cs) *
          ((cs.map (fun c => Qc.ofQ c.w * c.P *
            cis (-(2 * k * (c.lam2 - lam2_0C cs))))).sum))) := by
  unfold synthesize
  rw [wAccum_eq_wSum]
  split
  · rfl
  · refine congrArg (fun f => List.map f phis) (funext (fun k => ?_))
    rw [fdfSample, csum_eq_sum, wAccum_eq_wSum, lam2_0_eq]

/-! ## RMSF engine (spec §4.4) -/

/-- Application of a per-pixel flag pattern: the weight of every invalid
channel is forced to zero, positions are preserved. -/
def applyPattern (mask : List Bool) (cs : List Channel) : List Channel :=
  List.zipWith (fun v (c : Channel) => if v then c else { c with w := 0 }) mask cs

/-- Replacement of every polarization sample by unit amplitude
(`P_c ≡ 1`), as the RMSF summation requires. -/
def unitAmp (cs : List Channel) : List Channel :=
  cs.map (fun c => { c with P := 1 })

/-- Modelled from the spec: the RMSF construction of `get_rmsf_planes`
in `RMutils/util_RM.py` (not part of src/): the same summation as the
synthesis but with `P_c ≡ 1`, restricted to the pattern's valid
channels, evaluated over the doubled depth axis, and normalized by the
pattern's weight sum. -/
def buildRMSF (cis : ℚ → Qc) (mask : List Bool) (cs : List Channel)
    (phi2s : List ℚ) : List (Option Qc) :=
  synthesize cis (unitAmp (applyPattern mask cs)) phi2s

/-- The doubled trial-depth axis: `4n+1` samples of spacing `d` centred
on zero (covering twice the extent of a `2n+1`-sample φ axis); its
zero-offset sample sits at index `2n`. -/
def doubledAxis (n : ℕ) (d : ℚ) : List ℚ :=
  (List.range (4 * n + 1)).map (fun i : ℕ => ((i : ℚ) - 2 * (n : ℚ)) * d)

theorem doubledAxis_zero_sample (n : ℕ) (d : ℚ) :
    (doubledAxis n d)[2 * n]? = some 0 := by
  unfold doubledAxis
  rw [List.getElem?_map, List.getElem?_range (by omega)]
  simp

theorem wAccum_unitAmp (cs : List Channel) : wAccum (unitAmp cs) = wAccum cs := by
  rw [wAccum_eq_wSum, wAccum_eq_wSum]
  unfold wSum unitAmp
  rw [List.map_map]
  rfl

theorem ofQ_sum (f : Channel → ℚ) (l : List Channel) :
    (l.map (fun c => Qc.ofQ (f c))).sum = Qc.ofQ ((l.map f).sum) := by
  induction l with
  | nil => simp
  | cons c rest ih => simp [ih, Qc.ofQ_add]

/-- At trial depth zero the normalized unit-amplitude summation collapses
to `Σ w_c / Σ w_c = 1`. -/
theorem fdfSample_unitAmp_zero (cis : ℚ → Qc) (cs : List Channel) (l20 : ℚ)
    (h0 : cis 0 = 1) (hw : wAccum cs ≠ 0) :
    fdfSample cis (unitAmp cs) l20 0 = 1 := by
  unfold fdfSample
  rw [csum_eq_sum, wAccum_unitAmp]
  have hmap : (unitAmp cs).map
        (fun c => Qc.ofQ c.w * c.P * cis (-(2 * 0 * (c.lam2 - l20)))) =
      cs.map (fun c => Qc.ofQ c.w) := by
    unfold unitAmp
    rw [List.map_map]
    have hfun : ((fun c : Channel => Qc.ofQ c.w * c.P *
          cis (-(2 * 0 * (c.lam2 - l20)))) ∘
        (fun c : Channel => { c with P := 1 })) = fun c : Channel => Qc.ofQ c.w := by
      funext c
      have hz : -(2 * (0 : ℚ) * (c.lam2 - l20)) = 0 := by ring
      simp [Function.comp, hz, h0]
    rw [hfun]
  rw [hmap, ofQ_sum, ← Qc.ofQ_mul]
  rw [wAccum_eq_wSum] at hw
  have hws : (cs.map (fun c => c.w)).sum = wSum cs := rfl
  rw [hws, wAccum_eq_wSum, one_div, inv_mul_cancel₀ hw, Qc.ofQ_one]

/-- Positivity of a weight sum when all weights are nonnegative and at
least one is nonzero. -/
theorem wSum_pos_of_valid (cs : List Channel)
    (hpos : ∀ c ∈ cs, 0 ≤ c.w) (hex : ∃ c ∈ cs, c.w ≠ 0) : 0 < wSum cs := by
  obtain ⟨c, hc, hcw⟩ := hex
  obtain ⟨s, t, rfl⟩ := List.append_of_mem hc
  unfold wSum
  rw [List.map_append, List.sum_append, List.map_cons, List.sum_cons]
  have h1 : 0 ≤ ((s.map (fun c => c.w)).sum) := by
    apply List.sum_nonneg
    intro x hx
    obtain ⟨c1, hc1, rfl⟩ := List.mem_map.1 hx
    exact hpos c1 (by simp [hc1])
  have h2 : 0 ≤ ((t.map (fun c => c.w)).sum) := by
    apply List.sum_nonneg
    intro x hx
    obtain ⟨c1, hc1, rfl⟩ := List.mem_map.1 hx
    exact hpos c1 (by simp [hc1])
  have h3 : 0 < c.w := lt_of_le_of_ne (hpos c (by simp)) (Ne.symm hcw)
  linarith

/-- C3: for every non-degenerate flag pattern (at least one valid channel
with nonzero weight), the RMSF built over the doubled depth axis
evaluates to exactly `1 + 0i` at the `φ2 = 0` sample, as a consequence
of normalizing the unit-amplitude summation by the pattern's weight
sum. -/
theorem C3_rmsf_unit_peak (cis : ℚ → Qc) (mask : List Bool) (cs : List Channel)
    (n : ℕ) (d : ℚ) (h0 : cis 0 = 1)
    (hpos : ∀ c ∈ applyPattern mask cs, 0 ≤ c.w)
    (hex : ∃ c ∈ applyPattern mask cs, c.w ≠ 0) :
    (buildRMSF cis mask cs (doubledAxis n d))[2 * n]? = some (some 1) := by
  have hw : wSum (applyPattern mask cs) ≠ 0 :=
    ne_of_gt (wSum_pos_of_valid _ hpos hex)
  have hwa : wAccum (applyPattern mask cs) ≠ 0 := by
    rw [wAccum_eq_wSum]
    exact hw
  have hwa2 : wAccum (unitAmp (applyPattern mask cs)) ≠ 0 := by
    rw [wAccum_unitAmp]
    exact hwa
  unfold buildRMSF synthesize
  rw [if_neg hwa2, List.getElem?_map, doubledAxis_zero_sample]
  simp only [Option.map]
  rw [fdfSample_unitAmp_zero cis (applyPattern mask cs) _ h0 hwa]

/-- Concrete instantiation of `C3_rmsf_unit_peak`: two channels, the
second flagged invalid, uniform unit weights. -/
theorem C3_rmsf_unit_peak_witness :
    (buildRMSF (fun _ => 1) [true, false]
        [⟨1, 2, ⟨1, 0⟩⟩, ⟨1, 3, ⟨0, 1⟩⟩] (doubledAxis 1 1))[2 * 1]? =
      some (some 1) := by
  apply C3_rmsf_unit_peak
  · rfl
  · intro c hc
    simp only [applyPattern, List.zipWith, if_true, if_false,
      List.mem_cons, List.not_mem_nil, or_false] at hc
    rcases hc with h | h <;> subst h <;> norm_num
  · refine ⟨⟨1, 2, ⟨1, 0⟩⟩, ?_, by norm_num⟩
    simp [applyPattern, List.zipWith]

/-! ## Flag pattern registry (spec §4.2) -/

/-- Discovery pass: walk the pixels in order, appending each validity
mask not yet seen to the list of known patterns. -/
def discoverAux (acc : List (List Bool)) : List (List Bool) → List (List Bool)
  | [] => acc
  | m :: ms => if m ∈ acc then discoverAux acc ms else discoverAux (acc ++ [m]) ms

/-- Modelled from the spec: the deduplicated patterns of the flag-pattern
registry kept by `get_rmsf_planes` in `RMutils/util_RM.py` (not part of
src/), in first-occurrence order. -/
def discover (pixels : List (List Bool)) : List (List Bool) :=
  discoverAux [] pixels

/-- Canonical id of a mask: its index among the known patterns. -/
def maskId : List (List Bool) → List Bool → ℕ
  | [], _ => 0
  | p :: ps, m => if p = m then 0 else maskId ps m + 1

/-- Modelled from the spec: the pixel → pattern-id lookup of the
registry; each pixel receives the id of its own validity mask. -/
def registry (pixels : List (List Bool)) : List ℕ :=
  pixels.map (maskId (discover pixels))

/-- One RMSF per discovered pattern. -/
def rmsfTable (cis : ℚ → Qc) (cs : List Channel) (phi2s : List ℚ)
    (pixels : List (List Bool)) : List (List (Option Qc)) :=
  (discover pixels).map (fun mask => buildRMSF cis mask cs phi2s)

/-- The RMSF a pixel references: the table entry at its pattern id. -/
def pixelRMSF (cis : ℚ → Qc) (cs : List Channel) (phi2s : List ℚ)
    (pixels : List (List Bool)) (i : ℕ) : Option (List (Option Qc)) :=
  ((registry pixels)[i]?).bind (fun id => (rmsfTable cis cs phi2s pixels)[id]?)

theorem mem_discoverAux (ms : List (List Bool)) :
    ∀ (acc : List (List Bool)) (m : List Bool),
      m ∈ ms ∨ m ∈ acc → m ∈ discoverAux acc ms := by
  induction ms with
  | nil =>
      intro acc m hm
      rcases hm with h | h
      · cases h
      · simpa [discoverAux] using h
  | cons p ps ih =>
      intro acc m hm
      unfold discoverAux
      by_cases hp : p ∈ acc
      · rw [if_pos hp]
        apply ih
        rcases hm with h | h
        · rcases List.mem_cons.1 h with h1 | h1
          · subst h1
            exact Or.inr hp
          · exact Or.inl h1
        · exact Or.inr h
      · rw [if_neg hp]
        apply ih
        rcases hm with h | h
        · rcases List.mem_cons.1 h with h1 | h1
          · subst h1
            exact Or.inr (by simp)
          · exact Or.inl h1
        · exact Or.inr (by simp [h])

theorem maskId_lt_of_mem {pats : List (List Bool)} {m : List Bool}
    (hm : m ∈ pats) : maskId pats m < pats.length := by
  induction pats with
  | nil => cases hm
  | cons p ps ih =>
      unfold maskId
      by_cases hp : p = m
      · rw [if_pos hp]
        simp
      · rw [if_neg hp]
        have : m ∈ ps := by
          rcases List.mem_cons.1 hm with h | h
          · exact absurd h.symm hp
          · exact h
        simpa using Nat.succ_lt_succ (ih this)

/-- C4: the flag pattern registry maps every pixel to exactly one pattern
id (a valid index into the pattern table), and any two pixels whose
validity masks are bit-identical receive the same pattern id — in every
processing order, since the pixel list is arbitrary — and hence
reference the exact same RMSF array. -/
theorem C4_registry_consistent (cis : ℚ → Qc) (cs : List Channel)
    (phi2s : List ℚ) (pixels : List (List Bool)) (i j : ℕ)
    (hij : pixels[i]? = pixels[j]?) :
    (registry pixels).length = pixels.length ∧
    (∀ k, k < pixels.length →
      ∃ id, (registry pixels)[k]? = some id ∧ id < (discover pixels).length) ∧
    (registry pixels)[i]? = (registry pixels)[j]? ∧
    pixelRMSF cis cs phi2s pixels i = pixelRMSF cis cs phi2s pixels j := by
  refine ⟨by simp [registry], ?_, ?_, ?_⟩
  · intro k hk
    have hsome : ∃ m, pixels[k]? = some m := by
      rw [List.getElem?_eq_getElem hk]
      exact ⟨pixels[k], rfl⟩
    obtain ⟨m, hm⟩ := hsome
    refine ⟨maskId (discover pixels) m, ?_, ?_⟩
    · rw [registry, List.getElem?_map, hm]
      rfl
    · exact maskId_lt_of_mem
        (mem_discoverAux pixels [] m (Or.inl (List.getElem?_mem hm)))
  · rw [registry, List.getElem?_map, List.getElem?_map, hij]
  · rw [pixelRMSF, pixelRMSF, registry, List.getElem?_map, List.getElem?_map, hij]

/-- Concrete instantiation of `C4_registry_consistent`: pixels 0 and 2
share a mask and receive the same id and RMSF. -/
theorem C4_registry_consistent_witness :
    (registry [[true, false], [true, true], [true, false]]).length = 3 ∧
    (∀ k, k < 3 →
      ∃ id, (registry [[true, false], [true, true], [true, false]])[k]? = some id ∧
        id < (discover [[true, false], [true, true], [true, false]]).length) ∧
    (registry [[true, false], [true, true], [true, false]])[0]? =
      (registry [[true, false], [true, true], [true, false]])[2]? ∧
    pixelRMSF (fun _ => 1) [] [] [[true, false], [true, true], [true, false]] 0 =
      pixelRMSF (fun _ => 1) [] [] [[true, false], [true, true], [true, false]] 2 := by
  have h := C4_registry_consistent (fun _ => 1) [] []
    [[true, false], [true, true], [true, false]] 0 2 (by rfl)
  simpa using h

/-! ## CLEAN engine (spec §4.5) -/

/-- Terminal states of the per-pixel Hogbom CLEAN state machine. -/
inductive CleanState where
  | converged
  | maxIterReached
  | degenerate
deriving DecidableEq

/-- Read-only per-pixel CLEAN configuration: the pattern's RMSF over the
doubled axis, the index of its zero-offset sample, the cutoff and the
loop gain. -/
structure CleanInput where
  rmsf : List Qc
  center : ℕ
  cutoff : ℚ
  gain : ℚ
deriving DecidableEq

/-- Mutable per-pixel CLEAN state: the residual FDF, the ordered clean
component list `(φ-index, complex amplitude)`, and the iteration count. -/
structure CleanAcc where
  residual : List Qc
  comps : List (ℕ × Qc)
  iters : ℕ
deriving DecidableEq

/-- Index scan for the sample of maximum squared magnitude; strict
comparison keeps the lowest index on ties. -/
def peakIndexAux : List Qc → ℕ → ℕ → ℚ → ℕ
  | [], _, best, _ => best
  | z :: rest, i, best, bestV =>
    if bestV < Qc.normSq z then peakIndexAux rest (i + 1) i (Qc.normSq z)
    else peakIndexAux rest (i + 1) best bestV

/-- Index of the residual sample of maximum absolute amplitude, ties
broken by lowest φ index. -/
def peakIndex : List Qc → ℕ
  | [] => 0
  | z :: rest => peakIndexAux rest 1 0 (Qc.normSq z)

/-- Signed-index sample of a complex list, zero outside its support. -/
def getI (l : List Qc) (j : ℤ) : Qc :=
  if 0 ≤ j then l.getD j.toNat 0 else 0

/-- Indexed map with an explicit running index. -/
def mapIdxFrom (f : ℕ → Qc → Qc) : ℕ → List Qc → List Qc
  | _, [] => []
  | i, z :: rest => f i z :: mapIdxFrom f (i + 1) rest

/-- Whether the current peak amplitude is below the cutoff. -/
def belowCutoff (inp : CleanInput) (res : List Qc) : Bool :=
  Qc.magLtB (res.getD (peakIndex res) 0) inp.cutoff

/-- One CLEAN subtraction: locate the peak, subtract
`gain × amplitude × RMSF` shifted so the RMSF zero-offset sample aligns
with the peak index, record the component, bump the counter. -/
def advance (inp : CleanInput) (acc : CleanAcc) : CleanAcc :=
  let p := peakIndex acc.residual
  let amp := acc.residual.getD p 0
  let cc := Qc.ofQ inp.gain * amp
  { residual := mapIdxFrom
      (fun i r => r - cc * getI inp.rmsf ((inp.center : ℤ) + (i : ℤ) - (p : ℤ)))
      0 acc.residual,
    comps := acc.comps ++ [(p, cc)],
    iters := acc.iters + 1 }

/-- Modelled from the spec: the iterating body of the Hogbom CLEAN state
machine of `do_rmclean_hogbom` in `RMutils/util_RM.py` (not part of
src/). While iterations remain, the machine stops in `converged` as soon
as the peak amplitude is below the cutoff; it stops in `maxIterReached`
when the budget is exhausted with the cutoff still unmet. -/
def cleanLoop (inp : CleanInput) : ℕ → CleanAcc → CleanAcc × CleanState
  | 0, acc =>
    if belowCutoff inp acc.residual then (acc, CleanState.converged)
    else (acc, CleanState.maxIterReached)
  | fuel + 1, acc =>
    if belowCutoff inp acc.residual then (acc, CleanState.converged)
    else cleanLoop inp fuel (advance inp acc)

/-- Entry of a non-degenerate pixel into the CLEAN machine: the residual
starts as the dirty FDF (already restricted to the central valid φ
window), no components, zero iterations. -/
def runHogbomLoop (inp : CleanInput) (maxIter : ℕ) (dirty : List Qc) :
    CleanAcc × CleanState :=
  cleanLoop inp maxIter ⟨dirty, [], 0⟩

/-- Squared peak amplitude of a residual. -/
def peakNormSq (res : List Qc) : ℚ := Qc.normSq (res.getD (peakIndex res) 0)

/-- C2: for every non-degenerate pixel, if the CLEAN cutoff is greater
than the global peak magnitude of the dirty FDF over the valid window,
the state machine terminates in `converged` with exactly 0 iterations
and a residual identical to the dirty FDF. -/
theorem C2_converges_with_zero_iterations (inp : CleanInput) (maxIter : ℕ)
    (dirty : List Qc)
    (h : Qc.magLtB (dirty.getD (peakIndex dirty) 0) inp.cutoff = true) :
    runHogbomLoop inp maxIter dirty = (⟨dirty, [], 0⟩, CleanState.converged) := by
  have hb : belowCutoff inp dirty = true := h
  unfold runHogbomLoop
  cases maxIter <;> simp [cleanLoop, hb]

/-- Concrete instantiation of `C2_converges_with_zero_iterations`: a
one-sample dirty FDF of amplitude 1 against cutoff 2. -/
theorem C2_converges_with_zero_iterations_witness :
    runHogbomLoop ⟨[1], 0, 2, 1/10⟩ 5 [⟨1, 0⟩] =
      (⟨[⟨1, 0⟩], [], 0⟩, CleanState.converged) := by
  apply C2_converges_with_zero_iterations
  norm_num [Qc.magLtB, peakIndex, peakIndexAux, Qc.normSq, List.getD]

theorem cleanLoop_of_below (inp : CleanInput) (acc : CleanAcc)
    (hb : belowCutoff inp acc.residual = true) :
    ∀ m, cleanLoop inp m acc = (acc, CleanState.converged) := by
  intro m
  cases m <;> simp [cleanLoop, hb]

/-- Once a run has converged within its budget, any larger budget
reproduces the identical outcome. -/
theorem cleanLoop_converged_stable (inp : CleanInput) :
    ∀ (m1 m2 : ℕ) (acc : CleanAcc), m1 ≤ m2 →
      (cleanLoop inp m1 acc).2 = CleanState.converged →
      cleanLoop inp m2 acc = cleanLoop inp m1 acc := by
  intro m1
  induction m1 with
  | zero =>
      intro m2 acc _ hc
      by_cases hb : belowCutoff inp acc.residual = true
      · rw [cleanLoop_of_below inp acc hb, cleanLoop_of_below inp acc hb]
      · exfalso
        rw [Bool.not_eq_true] at hb
        simp [cleanLoop, hb] at hc
  | succ m ih =>
      intro m2 acc h12 hc
      by_cases hb : belowCutoff inp acc.residual = true
      · rw [cleanLoop_of_below inp acc hb, cleanLoop_of_below inp acc hb]
      · rw [Bool.not_eq_true] at hb
        obtain ⟨m2p, rfl⟩ : ∃ m2p, m2 = m2p + 1 := ⟨m2 - 1, by omega⟩
        have hstep : ∀ f, cleanLoop inp (f + 1) acc = cleanLoop inp f (advance inp acc) := by
          intro f
          simp [cleanLoop, hb]
        rw [hstep m] at hc
        rw [hstep m2p, hstep m]
        exact ih m2p (advance inp acc) (by omega) hc

/-- C5 (amended): for a non-degenerate pixel with fixed cutoff and gain
and iteration limits `m1 ≤ m2`, provided the run with limit `m1`
terminates in `converged`, the run with limit `m2` returns the identical
outcome, so the squared peak amplitude of its residual is not greater.
(C5 as stated is refuted by `C5_counterexample`: an unconverged
subtraction can raise the residual peak.) -/
theorem C5_amended_peak_monotone (inp : CleanInput) (m1 m2 : ℕ)
    (dirty : List Qc) (h12 : m1 ≤ m2)
    (hconv : (runHogbomLoop inp m1 dirty).2 = CleanState.converged) :
    runHogbomLoop inp m2 dirty = runHogbomLoop inp m1 dirty ∧
    peakNormSq (runHogbomLoop inp m2 dirty).1.residual ≤
      peakNormSq (runHogbomLoop inp m1 dirty).1.residual := by
  have h := cleanLoop_converged_stable inp m1 m2 ⟨dirty, [], 0⟩ h12 hconv
  unfold runHogbomLoop at h ⊢
  exact ⟨h, by rw [h]⟩

/-- Concrete instantiation of `C5_amended_peak_monotone`: a converging
run keeps its residual when the budget grows. -/
theorem C5_amended_peak_monotone_witness :
    runHogbomLoop ⟨[1], 0, 2, 1/10⟩ 4 [⟨1, 0⟩] =
      runHogbomLoop ⟨[1], 0, 2, 1/10⟩ 1 [⟨1, 0⟩] ∧
    peakNormSq (runHogbomLoop ⟨[1], 0, 2, 1/10⟩ 4 [⟨1, 0⟩]).1.residual ≤
      peakNormSq (runHogbomLoop ⟨[1], 0, 2, 1/10⟩ 1 [⟨1, 0⟩]).1.residual := by
  apply C5_amended_peak_monotone ⟨[1], 0, 2, 1/10⟩ 1 4 [⟨1, 0⟩] (by norm_num)
  norm_num [runHogbomLoop, cleanLoop, belowCutoff, Qc.magLtB, peakIndex,
    peakIndexAux, Qc.normSq, List.getD]

/-- C5 is false as stated: with RMSF `[0, 1, -1]` (zero-offset at index
1), gain 1, cutoff 1/2 and dirty FDF `[1, 9/10]`, one CLEAN iteration
lifts the squared residual peak from `1` to `361/100`, so raising
`maxIter` from 0 to 1 raises the residual's peak amplitude. -/
theorem C5_counterexample :
    ¬ (peakNormSq (runHogbomLoop ⟨[0, 1, ⟨-1, 0⟩], 1, 1/2, 1⟩ 1
          [⟨1, 0⟩, ⟨9/10, 0⟩]).1.residual ≤
        peakNormSq (runHogbomLoop ⟨[0, 1, ⟨-1, 0⟩], 1, 1/2, 1⟩ 0
          [⟨1, 0⟩, ⟨9/10, 0⟩]).1.residual) := by
  norm_num [runHogbomLoop, cleanLoop, belowCutoff, advance, peakIndex,
    peakIndexAux, peakNormSq, Qc.magLtB, Qc.normSq, getI, mapIdxFrom,
    List.getD, Qc.ofQ, List.getElem?_cons_zero, List.getElem?_cons_succ,
    List.getElem_cons_zero, List.getElem_cons_succ,
    (show Int.toNat 1 = 1 from rfl), (show Int.toNat 2 = 2 from rfl)]

/-! ## Hogbom driver, restoration and the run_rmclean scaling wrapper -/

/-- Signed-index sample of a rational list, zero outside its support. -/
def getIQ (l : List ℚ) (j : ℤ) : ℚ :=
  if 0 ≤ j then l.getD j.toNat 0 else 0

/-- The clean-component spectrum: at each φ index, the sum of the
amplitudes of the components recorded there. -/
def ccSpectrum (n : ℕ) (comps : List (ℕ × Qc)) : List Qc :=
  (List.range n).map
    (fun i => csum ((comps.filter (fun pc => pc.1 == i)).map (fun pc => pc.2)))

/-- One sample of the component spectrum convolved with the restoring
kernel (`ker` with zero-offset sample at index `kc`). The kernel is kept
abstract: the Gaussian restoring response of the spec is transcendental. -/
def restoreAt (ker : List ℚ) (kc : ℕ) (cc : List Qc) (i : ℕ) : Qc :=
  csum ((List.range cc.length).map
    (fun j : ℕ => Qc.ofQ (getIQ ker ((kc : ℤ) + (i : ℤ) - (j : ℤ))) * cc.getD j 0))

/-- The three arrays `do_rmclean_hogbom` hands back to `run_rmclean`. -/
structure HogbomResult where
  cleanFDF : List Qc
  ccArr : List Qc
  iterCount : ℕ
deriving DecidableEq

/-- Modelled from the spec: the per-pixel result assembly of
`do_rmclean_hogbom` in `RMutils/util_RM.py` (not part of src/): run the
CLEAN loop, build the component spectrum, and restore
(`clean FDF = components ∗ restoring kernel + residual`). -/
def do_rmclean_hogbom (inp : CleanInput) (ker : List ℚ) (kc : ℕ)
    (maxIter : ℕ) (dirty : List Qc) : HogbomResult :=
  let r := runHogbomLoop inp maxIter dirty
  let cc := ccSpectrum dirty.length r.1.comps
  { cleanFDF := mapIdxFrom (fun i z => restoreAt ker kc cc i + z) 0 r.1.residual,
    ccArr := cc,
    iterCount := r.1.iters }

/-- Elementwise multiplication of a complex list by a real scalar. -/
def scaleL (k : ℚ) (l : List Qc) : List Qc := l.map (fun z => Qc.ofQ k * z)

/-- From src `RMtools_3D/do_RMclean_3D.py`, `run_rmclean` lines 128-140:
the dirty FDF is multiplied by `1e3` before `do_rmclean_hogbom` and the
returned clean FDF and component array are divided by `1e3` afterwards;
the iteration count is passed through. -/
def run_rmclean_core (inp : CleanInput) (ker : List ℚ) (kc : ℕ)
    (maxIter : ℕ) (dirty : List Qc) : HogbomResult :=
  let r := do_rmclean_hogbom inp ker kc maxIter (scaleL 1000 dirty)
  { cleanFDF := scaleL (1 / 1000) r.cleanFDF,
    ccArr := scaleL (1 / 1000) r.ccArr,
    iterCount := r.iterCount }

/-- Scaling of a whole CLEAN state. -/
def scaleAcc (k : ℚ) (acc : CleanAcc) : CleanAcc :=
  { residual := scaleL k acc.residual,
    comps := acc.comps.map (fun pc => (pc.1, Qc.ofQ k * pc.2)),
    iters := acc.iters }

theorem scaleL_getD (k : ℚ) (l : List Qc) (i : ℕ) :
    (scaleL k l).getD i 0 = Qc.ofQ k * l.getD i 0 := by
  induction l generalizing i with
  | nil => simp [scaleL]
  | cons z rest ih =>
      cases i with
      | zero => simp [scaleL, List.getD]
      | succ n => simpa [scaleL, List.getD] using ih n

theorem peakIndexAux_scale (k : ℚ) (hk : k ≠ 0) (l : List Qc) :
    ∀ (i best : ℕ) (v : ℚ),
      peakIndexAux (scaleL k l) i best (k ^ 2 * v) = peakIndexAux l i best v := by
  have hk2 : 0 < k ^ 2 := by positivity
  induction l with
  | nil =>
      intro i best v
      simp [scaleL, peakIndexAux]
  | cons z rest ih =>
      intro i best v
      simp only [scaleL, List.map_cons, peakIndexAux, Qc.normSq_ofQ_mul]
      by_cases hv : v < Qc.normSq z
      · rw [if_pos hv, if_pos ((mul_lt_mul_left hk2).2 hv)]
        exact ih (i + 1) i (Qc.normSq z)
      · rw [if_neg hv, if_neg (fun hc => hv ((mul_lt_mul_left hk2).1 hc))]
        exact ih (i + 1) best v

theorem peakIndex_scale (k : ℚ) (hk : k ≠ 0) (l : List Qc) :
    peakIndex (scaleL k l) = peakIndex l := by
  cases l with
  | nil => rfl
  | cons z rest =>
      simp only [scaleL, List.map_cons, peakIndex, Qc.normSq_ofQ_mul]
      exact peakIndexAux_scale k hk rest 1 0 (Qc.normSq z)

theorem belowCutoff_scale (k : ℚ) (hk : 0 < k) (inp : CleanInput)
    (res : List Qc) :
    belowCutoff { inp with cutoff := k * inp.cutoff } (scaleL k res) =
      belowCutoff inp res := by
  unfold belowCutoff
  rw [peakIndex_scale k (ne_of_gt hk), scaleL_getD]
  exact Qc.magLtB_ofQ_mul k hk _ inp.cutoff

theorem mapIdxFrom_scale (k : ℚ) (F G : ℕ → Qc → Qc)
    (h : ∀ i z, G i (Qc.ofQ k * z) = Qc.ofQ k * F i z) :
    ∀ (j : ℕ) (l : List Qc),
      mapIdxFrom G j (scaleL k l) = scaleL k (mapIdxFrom F j l) := by
  intro j l
  induction l generalizing j with
  | nil => simp [scaleL, mapIdxFrom]
  | cons z rest ih =>
      simp only [scaleL, List.map_cons, mapIdxFrom, h]
      exact congrArg _ (ih (j + 1))

theorem advance_scale (k : ℚ) (hk : 0 < k) (inp : CleanInput) (acc : CleanAcc) :
    advance { inp with cutoff := k * inp.cutoff } (scaleAcc k acc) =
      scaleAcc k (advance inp acc) := by
  unfold advance scaleAcc
  simp only [peakIndex_scale k (ne_of_gt hk), scaleL_getD, List.map_append,
    List.map_cons, List.map_nil]
  rw [CleanAcc.mk.injEq]
  refine ⟨?_, ?_, rfl⟩
  · apply mapIdxFrom_scale
    intro i z
    ring
  · refine congrArg (fun x => acc.comps.map _ ++ [(peakIndex acc.residual, x)]) ?_
    ring

theorem cleanLoop_scale (k : ℚ) (hk : 0 < k) (inp : CleanInput) :
    ∀ (fuel : ℕ) (acc : CleanAcc),
      cleanLoop { inp with cutoff := k * inp.cutoff } fuel (scaleAcc k acc) =
        (scaleAcc k (cleanLoop inp fuel acc).1, (cleanLoop inp fuel acc).2) := by
  intro fuel
  induction fuel with
  | zero =>
      intro acc
      have hb := belowCutoff_scale k hk inp acc.residual
      simp only [cleanLoop, scaleAcc] at hb ⊢
      by_cases h : belowCutoff inp acc.residual <;> simp [h] at hb ⊢ <;> simp [hb]
  | succ f ih =>
      intro acc
      have hb := belowCutoff_scale k hk inp acc.residual
      simp only [cleanLoop, scaleAcc] at hb ⊢
      by_cases h : belowCutoff inp acc.residual
      · simp [h] at hb
        simp [h, hb]
      · simp [h] at hb
        simp only [hb, h, if_false, Bool.false_eq_true]
        have ha := advance_scale k hk inp acc
        simp only [scaleAcc] at ha
        rw [ha]
        exact ih (advance inp acc)

theorem csum_map_scale (k : ℚ) {α : Type} (f : α → Qc) (l : List α) :
    csum (l.map (fun a => Qc.ofQ k * f a)) = Qc.ofQ k * csum (l.map f) := by
  rw [csum_eq_sum, csum_eq_sum]
  induction l with
  | nil => simp
  | cons a rest ih => simp [ih, mul_add]

theorem csum_scaleL (k : ℚ) (l : List Qc) :
    csum (scaleL k l) = Qc.ofQ k * csum l := by
  have h := csum_map_scale k (fun z : Qc => z) l
  simpa [scaleL] using h

theorem ccSpectrum_scale (k : ℚ) (n : ℕ) (comps : List (ℕ × Qc)) :
    ccSpectrum n (comps.map (fun pc => (pc.1, Qc.ofQ k * pc.2))) =
      scaleL k (ccSpectrum n comps) := by
  unfold ccSpectrum scaleL
  rw [List.map_map]
  refine congrArg (fun f => List.map f (List.range n)) (funext (fun i => ?_))
  simp only [Function.comp]
  rw [List.filter_map, List.map_map]
  have hp : (fun pc : ℕ × Qc => pc.1 == i) ∘
      (fun pc : ℕ × Qc => (pc.1, Qc.ofQ k * pc.2)) =
      fun pc : ℕ × Qc => pc.1 == i := by
    funext pc
    rfl
  rw [hp]
  have hm : ((fun pc : ℕ × Qc => pc.2) ∘
      (fun pc : ℕ × Qc => (pc.1, Qc.ofQ k * pc.2))) =
      fun pc : ℕ × Qc => Qc.ofQ k * pc.2 := by
    funext pc
    rfl
  rw [hm]
  exact csum_map_scale k (fun pc : ℕ × Qc => pc.2) _

theorem restoreAt_scale (k : ℚ) (ker : List ℚ) (kc : ℕ) (cc : List Qc) (i : ℕ) :
    restoreAt ker kc (scaleL k cc) i = Qc.ofQ k * restoreAt ker kc cc i := by
  unfold restoreAt
  rw [show (scaleL k cc).length = cc.length from List.length_map cc _]
  have hfun : (fun j : ℕ => Qc.ofQ (getIQ ker ((kc : ℤ) + (i : ℤ) - (j : ℤ))) *
      (scaleL k cc).getD j 0) =
      fun j : ℕ => Qc.ofQ k *
        (Qc.ofQ (getIQ ker ((kc : ℤ) + (i : ℤ) - (j : ℤ))) * cc.getD j 0) := by
    funext j
    rw [scaleL_getD]
    ring
  rw [hfun]
  exact csum_map_scale k _ _

theorem do_rmclean_hogbom_scale (k : ℚ) (hk : 0 < k) (inp : CleanInput)
    (ker : List ℚ) (kc : ℕ) (maxIter : ℕ) (dirty : List Qc) :
    do_rmclean_hogbom { inp with cutoff := k * inp.cutoff } ker kc maxIter
        (scaleL k dirty) =
      { cleanFDF := scaleL k (do_rmclean_hogbom inp ker kc maxIter dirty).cleanFDF,
        ccArr := scaleL k (do_rmclean_hogbom inp ker kc maxIter dirty).ccArr,
        iterCount := (do_rmclean_hogbom inp ker kc maxIter dirty).iterCount } := by
  unfold do_rmclean_hogbom runHogbomLoop
  have hacc : (⟨scaleL k dirty, [], 0⟩ : CleanAcc) =
      scaleAcc k ⟨dirty, [], 0⟩ := rfl
  rw [hacc, cleanLoop_scale k hk inp maxIter ⟨dirty, [], 0⟩]
  simp only [scaleAcc]
  rw [show (scaleL k dirty).length = dirty.length from List.length_map dirty _]
  rw [ccSpectrum_scale]
  rw [HogbomResult.mk.injEq]
  refine ⟨?_, rfl, rfl⟩
  apply mapIdxFrom_scale
  intro i z
  rw [restoreAt_scale]
  ring

/-- C8: `run_rmclean` multiplies the dirty FDF by `1e3` before
`do_rmclean_hogbom` and divides the returned clean FDF and component
array by `1e3` afterwards (that is the definition of
`run_rmclean_core`), so its outputs equal those of a direct
`do_rmclean_hogbom` run on the unscaled dirty FDF with the cutoff
divided by 1000: the persisted arrays are in the input units while the
user cutoff is interpreted in milli-units of the input. -/
theorem C8_cutoff_in_milli_units (inp : CleanInput) (ker : List ℚ) (kc : ℕ)
    (maxIter : ℕ) (dirty : List Qc) :
    run_rmclean_core inp ker kc maxIter dirty =
      do_rmclean_hogbom { inp with cutoff := inp.cutoff / 1000 } ker kc
        maxIter dirty := by
  unfold run_rmclean_core
  have hs := do_rmclean_hogbom_scale 1000 (by norm_num)
    { inp with cutoff := inp.cutoff / 1000 } ker kc maxIter dirty
  have h1000 : (1000 : ℚ) * (inp.cutoff / 1000) = inp.cutoff := by
    field_simp
  simp only [h1000] at hs
  have hinp : ({ { inp with cutoff := inp.cutoff / 1000 } with
      cutoff := inp.cutoff } : CleanInput) = inp := rfl
  rw [hinp] at hs
  have hscale : ∀ l : List Qc, scaleL (1 / 1000) (scaleL 1000 l) = l := by
    intro l
    unfold scaleL
    rw [List.map_map]
    have hfun : ((fun z => Qc.ofQ (1 / 1000) * z) ∘ (fun z => Qc.ofQ 1000 * z)) =
        fun z : Qc => z := by
      funext z
      have : Qc.ofQ (1 / 1000) * (Qc.ofQ 1000 * z) =
          (Qc.ofQ (1 / 1000) * Qc.ofQ 1000) * z := by ring
      rw [Function.comp, this, ← Qc.ofQ_mul]
      norm_num
    rw [hfun]
    exact List.map_id' l
  rw [hs]
  simp only [hscale]

/-! ## Persistence of run_rmclean (src do_RMclean_3D.py lines 147-165) -/

/-- From src `run_rmclean` lines 147-165: the persisted outputs, one
entry per FITS file written, each file a list of planes. The magnitude
function `mag` is kept abstract (the float `np.abs` of a complex sample
is irrational); `ccArr.astype(float)` keeps the real component of the
complex clean-component array, hence the `Qc.re` projection on plane 4. -/
def run_rmclean_files (mag : Qc → ℚ) (inp : CleanInput) (ker : List ℚ)
    (kc : ℕ) (maxIter : ℕ) (dirty : List Qc) : List (String × List (List ℚ)) :=
  let r := run_rmclean_core inp ker kc maxIter dirty
  [("FDF_clean.fits",
    [r.cleanFDF.map Qc.re, r.cleanFDF.map Qc.im,
     r.cleanFDF.map (fun z => mag z), r.ccArr.map Qc.re]),
   ("CLEAN_nIter.fits", [[(r.iterCount : ℚ)]])]

theorem map_mag_eq_zip (mag : Qc → ℚ) (l : List Qc) :
    l.map (fun z => mag z) =
      List.zipWith (fun a b => mag ⟨a, b⟩) (l.map Qc.re) (l.map Qc.im) := by
  induction l with
  | nil => rfl
  | cons z rest ih => simp only [List.map_cons, List.zipWith_cons_cons, ih]

/-- C7: every successful `run_rmclean` run persists exactly two files:
a clean-FDF file whose four planes are, in order, the real part of the
clean FDF, the imaginary part, the amplitude plane (elementwise complex
magnitude of the real and imaginary planes), and the clean-component
array; and a second file holding the iteration-count map. -/
theorem C7_persisted_outputs (mag : Qc → ℚ) (inp : CleanInput) (ker : List ℚ)
    (kc : ℕ) (maxIter : ℕ) (dirty : List Qc) :
    (run_rmclean_files mag inp ker kc maxIter dirty).length = 2 ∧
    run_rmclean_files mag inp ker kc maxIter dirty =
      [("FDF_clean.fits",
        [(run_rmclean_core inp ker kc maxIter dirty).cleanFDF.map Qc.re,
         (run_rmclean_core inp ker kc maxIter dirty).cleanFDF.map Qc.im,
         List.zipWith (fun a b => mag ⟨a, b⟩)
           ((run_rmclean_core inp ker kc maxIter dirty).cleanFDF.map Qc.re)
           ((run_rmclean_core inp ker kc maxIter dirty).cleanFDF.map Qc.im),
         (run_rmclean_core inp ker kc maxIter dirty).ccArr.map Qc.re]),
       ("CLEAN_nIter.fits",
        [[((run_rmclean_core inp ker kc maxIter dirty).iterCount : ℚ)]])] := by
  refine ⟨rfl, ?_⟩
  unfold run_rmclean_files
  simp only [map_mag_eq_zip mag]

/-! ## Command-line models (src do_RMclean_3D.py main, do_RMsynth_3D.py main) -/

/-- The value shapes the `-c` cutoff option can take: argparse with
`nargs=1` wraps a supplied value in a one-element list, while the
default `1.0` stays a bare scalar. -/
inductive CutoffArg where
  | scalar (x : ℚ)
  | list (xs : List ℚ)
deriving DecidableEq

/-- The optional command-line flags of `do_RMclean_3D.py`. -/
inductive CleanOpt where
  | c (x : ℚ)
  | n (k : ℤ)
  | g (x : ℚ)
  | o (s : String)
deriving DecidableEq

/-- The parsed argument record of `do_RMclean_3D.py` `main`. -/
structure CleanArgs where
  cutoff_mJy : CutoffArg
  maxIter : ℤ
  gain : ℚ
  prefixOut : String
deriving DecidableEq

/-- Effect of one recognised option on the argument record. -/
def applyCleanOpt (a : CleanArgs) (o : CleanOpt) : CleanArgs :=
  match o with
  | CleanOpt.c x => { a with cutoff_mJy := CutoffArg.list [x] }
  | CleanOpt.n k => { a with maxIter := k }
  | CleanOpt.g x => { a with gain := x }
  | CleanOpt.o s => { a with prefixOut := s }

/-- From src `do_RMclean_3D.py` `main` lines 66-80: argparse defaults
`-c 1.0` (bare scalar), `-n 1000`, `-g 0.1`, `-o ""`; a supplied `-c`
value arrives as a one-element list; no range validation of any value
is performed. -/
def parseCleanArgs (opts : List CleanOpt) : CleanArgs :=
  opts.foldl applyCleanOpt
    { cutoff_mJy := CutoffArg.scalar 1, maxIter := 1000, gain := 1 / 10,
      prefixOut := "" }

/-- The argument record `main` hands to `run_rmclean`. -/
structure RunRMCleanCall where
  fitsFDF : String
  fitsRMSF : String
  cutoff_mJy : CutoffArg
  maxIter : ℤ
  gain : ℚ
  prefixOut : String
deriving DecidableEq

/-- From src `do_RMclean_3D.py` `main` lines 90-97: the parsed option
values are passed to `run_rmclean` unchanged. -/
def cleanMain (fitsFDF fitsRMSF : String) (opts : List CleanOpt) :
    RunRMCleanCall :=
  let args := parseCleanArgs opts
  { fitsFDF := fitsFDF, fitsRMSF := fitsRMSF,
    cutoff_mJy := args.cutoff_mJy, maxIter := args.maxIter,
    gain := args.gain, prefixOut := args.prefixOut }

/-- C6 is false as stated: with no options supplied, `cutoff_mJy` and
`maxIter` receive the argparse defaults `1.0` and `1000` (so they can be
omitted), and supplied values are accepted without any validation:
`-c -5` and `-n -3` pass through negative, and `-g 2` passes a gain
outside `(0, 1]`. -/
theorem C6_counterexample :
    (parseCleanArgs []).cutoff_mJy = CutoffArg.scalar 1 ∧
    (parseCleanArgs []).maxIter = 1000 ∧
    (parseCleanArgs []).gain = 1 / 10 ∧
    (parseCleanArgs [CleanOpt.c (-5), CleanOpt.n (-3),
        CleanOpt.g 2]).cutoff_mJy = CutoffArg.list [-5] ∧
    (parseCleanArgs [CleanOpt.c (-5), CleanOpt.n (-3),
        CleanOpt.g 2]).maxIter = -3 ∧
    (parseCleanArgs [CleanOpt.c (-5), CleanOpt.n (-3),
        CleanOpt.g 2]).gain = 2 :=
  ⟨rfl, rfl, rfl, rfl, rfl, rfl⟩

/-- C6 (amended): `cutoff`, `maxIter` and `gain` are optional, with
argparse defaults `1.0` (bare scalar), `1000` and `0.1`; supplied values
of any sign or range are passed through without validation. -/
theorem C6_amended_defaults_no_validation (x : ℚ) (k : ℤ) (g : ℚ) :
    parseCleanArgs [] =
      { cutoff_mJy := CutoffArg.scalar 1, maxIter := 1000, gain := 1 / 10,
        prefixOut := "" } ∧
    parseCleanArgs [CleanOpt.c x, CleanOpt.n k, CleanOpt.g g] =
      { cutoff_mJy := CutoffArg.list [x], maxIter := k, gain := g,
        prefixOut := "" } :=
  ⟨rfl, rfl⟩

/-- The value of the last `-c` occurrence on the command line, if any
(argparse keeps the last occurrence of a repeated option). -/
def lastCutoff : List CleanOpt → Option ℚ
  | [] => none
  | o :: rest =>
    match lastCutoff rest with
    | some y => some y
    | none =>
      match o with
      | CleanOpt.c x => some x
      | _ => none

theorem parseCleanArgs_cutoff_aux :
    ∀ (opts : List CleanOpt) (a : CleanArgs),
      (opts.foldl applyCleanOpt a).cutoff_mJy =
        match lastCutoff opts with
        | none => a.cutoff_mJy
        | some x => CutoffArg.list [x] := by
  intro opts
  induction opts with
  | nil => intro a; rfl
  | cons o rest ih =>
      intro a
      rw [List.foldl_cons, ih (applyCleanOpt a o)]
      cases h : lastCutoff rest <;>
        cases o <;>
          simp [lastCutoff, h, applyCleanOpt]

/-- C10: `main` of `do_RMclean_3D.py` passes `cutoff_mJy` to
`run_rmclean` as a one-element list of floats whenever `-c` is given,
but as the bare scalar `1.0` when `-c` is omitted, so the shape of the
cutoff `run_rmclean` receives depends on whether the flag was
supplied. -/
theorem C10_cutoff_shape (fitsFDF fitsRMSF : String) (opts : List CleanOpt) :
    (cleanMain fitsFDF fitsRMSF opts).cutoff_mJy =
      (parseCleanArgs opts).cutoff_mJy ∧
    (lastCutoff opts = none →
      (cleanMain fitsFDF fitsRMSF opts).cutoff_mJy = CutoffArg.scalar 1) ∧
    (∀ x, lastCutoff opts = some x →
      (cleanMain fitsFDF fitsRMSF opts).cutoff_mJy = CutoffArg.list [x]) := by
  refine ⟨rfl, ?_, ?_⟩
  · intro h
    show (parseCleanArgs opts).cutoff_mJy = CutoffArg.scalar 1
    rw [parseCleanArgs, parseCleanArgs_cutoff_aux opts, h]
  · intro x h
    show (parseCleanArgs opts).cutoff_mJy = CutoffArg.list [x]
    rw [parseCleanArgs, parseCleanArgs_cutoff_aux opts, h]

/-- Concrete instantiation of `C10_cutoff_shape`: omitting `-c` yields
the scalar `1.0`, supplying `-c 3/2` yields the one-element list. -/
theorem C10_cutoff_shape_witness :
    (cleanMain "FDF.fits" "RMSF.fits" []).cutoff_mJy = CutoffArg.scalar 1 ∧
    (cleanMain "FDF.fits" "RMSF.fits" [CleanOpt.c (3 / 2)]).cutoff_mJy =
      CutoffArg.list [3 / 2] :=
  ⟨(C10_cutoff_shape "FDF.fits" "RMSF.fits" []).2.1 rfl,
   (C10_cutoff_shape "FDF.fits" "RMSF.fits" [CleanOpt.c (3 / 2)]).2.2 (3 / 2) rfl⟩

/-- The command-line paths of `do_RMsynth_3D.py` `main`. -/
structure SynthArgs where
  fitsQ : String
  fitsU : String
  freqFile : String
  fitsI : Option String
  noiseFile : Option String
deriving DecidableEq

/-- The argument record `main` hands to `run_rmsynth`. -/
structure RunRMSynthCall where
  fitsQ : String
  fitsU : String
  freqFile : String
  fitsI : Option String
  noiseFile : Option String
deriving DecidableEq

/-- From src `do_RMsynth_3D.py` `main` lines 99-120: existence is
checked only for the Stokes Q and U paths (the script exits on the first
missing one); the frequency-file path and the optional Stokes I and
noise paths are handed to `run_rmsynth` without any existence check.
`fileOk` abstracts `os.path.exists`. -/
def synthMain (fileOk : String → Bool) (args : SynthArgs) :
    Option RunRMSynthCall :=
  if !(fileOk args.fitsQ) then none
  else if !(fileOk args.fitsU) then none
  else some { fitsQ := args.fitsQ, fitsU := args.fitsU,
              freqFile := args.freqFile, fitsI := args.fitsI,
              noiseFile := args.noiseFile }

/-- C9: `main` of `do_RMsynth_3D.py` exits before processing iff the
Stokes Q or U path is missing; it never consults the filesystem about
the frequency, Stokes I or noise paths (two oracles agreeing on Q and U
give identical outcomes), and when it proceeds those paths are passed to
`run_rmsynth` unchanged even if no such file exists. -/
theorem C9_existence_checks (args : SynthArgs) (fileOk fileOk2 : String → Bool)
    (hQ : fileOk args.fitsQ = fileOk2 args.fitsQ)
    (hU : fileOk args.fitsU = fileOk2 args.fitsU) :
    synthMain fileOk args = synthMain fileOk2 args ∧
    (synthMain fileOk args = none ↔
      (fileOk args.fitsQ = false ∨ fileOk args.fitsU = false)) ∧
    (fileOk args.fitsQ = true → fileOk args.fitsU = true →
      synthMain fileOk args =
        some ⟨args.fitsQ, args.fitsU, args.freqFile, args.fitsI,
          args.noiseFile⟩) := by
  refine ⟨?_, ?_, ?_⟩
  · unfold synthMain
    rw [hQ, hU]
  · unfold synthMain
    cases hq : fileOk args.fitsQ <;> cases hu : fileOk args.fitsU <;> simp
  · intro hq hu
    unfold synthMain
    rw [hq, hu]
    rfl

/-- Concrete instantiation of `C9_existence_checks`: Q and U exist, the
frequency file does not, and the run still proceeds with the
frequency-file path passed through. -/
theorem C9_existence_checks_witness :
    synthMain (fun s => s == "Q.fits" || s == "U.fits")
        ⟨"Q.fits", "U.fits", "freqs.dat", none, none⟩ =
      synthMain (fun s => s == "Q.fits" || s == "U.fits" || s == "freqs.dat")
        ⟨"Q.fits", "U.fits", "freqs.dat", none, none⟩ ∧
    synthMain (fun s => s == "Q.fits" || s == "U.fits")
        ⟨"Q.fits", "U.fits", "freqs.dat", none, none⟩ =
      some ⟨"Q.fits", "U.fits", "freqs.dat", none, none⟩ := by
  have h := C9_existence_checks ⟨"Q.fits", "U.fits", "freqs.dat", none, none⟩
    (fun s => s == "Q.fits" || s == "U.fits")
    (fun s => s == "Q.fits" || s == "U.fits" || s == "freqs.dat")
    (by rfl) (by rfl)
  exact ⟨h.1, h.2.2 (by rfl) (by rfl)⟩

end RMTools
